import Mathlib

/-
  Verification of the Quantum-1 repository: a Q# notebook constructing a
  fourth-order Trotter-Suzuki circuit for a 2D Ising model, and a Python
  dashboard formatting resource-estimation results.

  The Q# `Int` type is embedded as `ℤ`, `Double` as `ℝ` (or a general field
  where the code is parametric), arrays as lists, and the quantum operations
  as the trace (list) of gate applications they emit.  The Python `get_row` /
  `dashboard` functions are embedded over `ℚ` (exact arithmetic standing in
  for Python numbers), with a raised exception modelled as `Option.none`.
-/

/-- Embedding of the Q# function `GetQubitIndex(row, col, n)`:
snake order on the 2D lattice, left-to-right on even rows and
right-to-left on odd rows.  (Q# truncated `%` and Lean `Int.emod` agree
on the test `row % 2 == 0`.) -/
def GetQubitIndex (row col n : ℤ) : ℤ :=
  if row % 2 = 0 then col + n * row else (n - 1 - col) + n * row

/-- If `0 ≤ row < n` and `0 ≤ col < n` then `GetQubitIndex row col n`
lands in `[0, n*n)`. -/
lemma getQubitIndex_bounds {row col n : ℤ} (h1 : 0 ≤ row) (h2 : row < n)
    (h3 : 0 ≤ col) (h4 : col < n) :
    0 ≤ GetQubitIndex row col n ∧ GetQubitIndex row col n < n * n := by
  have hn : 0 < n := lt_of_le_of_lt h3 h4
  have hrow : n * row ≤ n * (n - 1) :=
    mul_le_mul_of_nonneg_left (by omega) (le_of_lt hn)
  have hrow0 : 0 ≤ n * row := mul_nonneg (le_of_lt hn) h1
  unfold GetQubitIndex
  split <;> constructor <;> nlinarith

/-- On `[0,n) × [0,n)` the snake-order map is injective. -/
lemma getQubitIndex_injOn {n : ℤ} (r1 c1 r2 c2 : ℤ)
    (hr1 : 0 ≤ r1) (hr1n : r1 < n) (hc1 : 0 ≤ c1) (hc1n : c1 < n)
    (hr2 : 0 ≤ r2) (hr2n : r2 < n) (hc2 : 0 ≤ c2) (hc2n : c2 < n)
    (heq : GetQubitIndex r1 c1 n = GetQubitIndex r2 c2 n) :
    r1 = r2 ∧ c1 = c2 := by
  have hn : 0 < n := lt_of_le_of_lt hc1 hc1n
  -- both sides have the shape col' + n * row with col' ∈ [0, n)
  have key : ∀ col' row : ℤ, 0 ≤ col' → col' < n →
      (col' + n * row) / n = row ∧ (col' + n * row) % n = col' := by
    intro col' row h0 h1
    constructor
    · rw [mul_comm n row, Int.add_mul_ediv_right _ _ (ne_of_gt hn),
        Int.ediv_eq_zero_of_lt h0 h1, zero_add]
    · rw [mul_comm n row, Int.add_mul_emod_self, Int.emod_eq_of_lt h0 h1]
  unfold GetQubitIndex at heq
  by_cases p1 : r1 % 2 = 0 <;> by_cases p2 : r2 % 2 = 0 <;>
    simp only [p1, p2, if_pos, if_neg, if_true, if_false] at heq
  · obtain ⟨d1, m1⟩ := key c1 r1 hc1 hc1n
    obtain ⟨d2, m2⟩ := key c2 r2 hc2 hc2n
    constructor
    · rw [← d1, heq, d2]
    · rw [← m1, heq, m2]
  · obtain ⟨d1, m1⟩ := key c1 r1 hc1 hc1n
    obtain ⟨d2, m2⟩ := key (n - 1 - c2) r2 (by omega) (by omega)
    have hr : r1 = r2 := by rw [← d1, heq, d2]
    omega
  · obtain ⟨d1, m1⟩ := key (n - 1 - c1) r1 (by omega) (by omega)
    obtain ⟨d2, m2⟩ := key c2 r2 hc2 hc2n
    have hr : r1 = r2 := by rw [← d1, heq, d2]
    omega
  · obtain ⟨d1, m1⟩ := key (n - 1 - c1) r1 (by omega) (by omega)
    obtain ⟨d2, m2⟩ := key (n - 1 - c2) r2 (by omega) (by omega)
    have hr : r1 = r2 := by rw [← d1, heq, d2]
    have hc : n - 1 - c1 = n - 1 - c2 := by rw [← m1, heq, m2]
    exact ⟨hr, by omega⟩

/-- Every index in `[0, n*n)` is hit by the snake-order map. -/
lemma getQubitIndex_surjOn {n : ℤ} (hn : 1 ≤ n) (k : ℤ)
    (hk0 : 0 ≤ k) (hkn : k < n * n) :
    ∃ row col, 0 ≤ row ∧ row < n ∧ 0 ≤ col ∧ col < n ∧
      GetQubitIndex row col n = k := by
  have hnpos : 0 < n := hn
  have hrow0 : 0 ≤ k / n := Int.ediv_nonneg hk0 (le_of_lt hnpos)
  have hrown : k / n < n := by
    rw [Int.ediv_lt_iff_lt_mul hnpos]; exact hkn
  have hcol0 : 0 ≤ k % n := Int.emod_nonneg k (ne_of_gt hnpos)
  have hcoln : k % n < n := Int.emod_lt_of_pos k hnpos
  by_cases hpar : (k / n) % 2 = 0
  · refine ⟨k / n, k % n, hrow0, hrown, hcol0, hcoln, ?_⟩
    unfold GetQubitIndex
    rw [if_pos hpar]
    exact Int.emod_add_ediv k n
  · refine ⟨k / n, n - 1 - k % n, hrow0, hrown, by omega, by omega, ?_⟩
    unfold GetQubitIndex
    rw [if_neg hpar]
    have h : n - 1 - (n - 1 - k % n) = k % n := by omega
    rw [h]
    exact Int.emod_add_ediv k n

/-- Claim C8: for every `n ≥ 1`, the snake-order mapping
`(row, col) ↦ GetQubitIndex row col n` restricted to `0 ≤ row < n`,
`0 ≤ col < n` is a bijection onto `{0, ..., n^2 - 1}`; in particular two
distinct lattice sites never map to the same array index. -/
theorem getQubitIndex_bijOn (n : ℤ) (hn : 1 ≤ n) :
    Set.BijOn (fun rc : ℤ × ℤ => GetQubitIndex rc.1 rc.2 n)
      {rc : ℤ × ℤ | 0 ≤ rc.1 ∧ rc.1 < n ∧ 0 ≤ rc.2 ∧ rc.2 < n}
      {k : ℤ | 0 ≤ k ∧ k < n ^ 2} := by
  have hsq : n ^ 2 = n * n := sq n
  refine ⟨?_, ?_, ?_⟩
  · intro rc hrc
    obtain ⟨h1, h2, h3, h4⟩ := hrc
    obtain ⟨hb1, hb2⟩ := getQubitIndex_bounds h1 h2 h3 h4
    exact ⟨hb1, by rw [hsq]; exact hb2⟩
  · intro rc1 h1 rc2 h2 heq
    obtain ⟨a1, a2, a3, a4⟩ := h1
    obtain ⟨b1, b2, b3, b4⟩ := h2
    obtain ⟨hr, hc⟩ :=
      getQubitIndex_injOn rc1.1 rc1.2 rc2.1 rc2.2 a1 a2 a3 a4 b1 b2 b3 b4 heq
    exact Prod.ext hr hc
  · intro k hk
    obtain ⟨hk0, hkn⟩ := hk
    obtain ⟨row, col, h1, h2, h3, h4, h5⟩ :=
      getQubitIndex_surjOn hn k hk0 (by rw [← hsq]; exact hkn)
    exact ⟨(row, col), ⟨h1, h2, h3, h4⟩, h5⟩

/-- Witness for C8 at the concrete lattice size `n = 2`. -/
theorem getQubitIndex_bijOn_witness :
    Set.BijOn (fun rc : ℤ × ℤ => GetQubitIndex rc.1 rc.2 2)
      {rc : ℤ × ℤ | 0 ≤ rc.1 ∧ rc.1 < 2 ∧ 0 ≤ rc.2 ∧ rc.2 < 2}
      {k : ℤ | 0 ≤ k ∧ k < 2 ^ 2} :=
  getQubitIndex_bijOn 2 (by decide)

/-- Membership in a step-one `range'` in bounds form. -/
lemma mem_range_one {i s k : ℕ} : i ∈ List.range' s k ↔ s ≤ i ∧ i < s + k := by
  rw [List.mem_range']
  constructor
  · rintro ⟨m, hm, rfl⟩; omega
  · intro h; exact ⟨i - s, by omega, by omega⟩

/-- The precomputed `values` array of the Q# function `SetSequences`. -/
def setSequencesValues {α : Type} [Field α] (p dt J g : α) : List α :=
  [-J * p * dt,
   g * p * dt,
   -J * p * dt,
   g * p * dt,
   -J * (1 - 3 * p) * dt / 2,
   g * (1 - 4 * p) * dt,
   -J * (1 - 3 * p) * dt / 2,
   g * p * dt,
   -J * p * dt,
   g * p * dt]

/-- One iteration of the loop `for i in 1..len - 2` of `SetSequences`:
even `i` writes `values[i % 10]` into `seqA`, odd `i` into `seqB`. -/
def seqStep {α : Type} [Field α] (values : List α) :
    (List α × List α) → ℕ → (List α × List α) := fun AB i =>
  if i % 2 = 0 then (AB.1.set i (values.getD (i % 10) 0), AB.2)
  else (AB.1, AB.2.set i (values.getD (i % 10) 0))

/-- Embedding of the Q# function
`SetSequences(len, p, dt, J, g) : (Double[], Double[])`, parametric in the
field of scalars (the code is the same for any field; `ℝ` models `Double`).
The Q# `len : Int` is taken as a natural number (all call sites pass
`10 * t + 1 ≥ 1`). -/
def SetSequences {α : Type} [Field α] (len : ℕ) (p dt J g : α) :
    List α × List α :=
  let seqA := List.replicate len (0 : α)
  let seqB := List.replicate len (0 : α)
  let values := setSequencesValues p dt J g
  let seqA2 := (seqA.set 0 (-J * p * dt / 2)).set (len - 1) (-J * p * dt / 2)
  (List.range' 1 (len - 2)).foldl (seqStep values) (seqA2, seqB)

lemma seqStep_foldl_length {α : Type} [Field α] (v : List α) (l : List ℕ)
    (AB : List α × List α) :
    (l.foldl (seqStep v) AB).1.length = AB.1.length ∧
    (l.foldl (seqStep v) AB).2.length = AB.2.length := by
  induction l generalizing AB with
  | nil => exact ⟨rfl, rfl⟩
  | cons i l ih =>
    simp only [List.foldl_cons]
    obtain ⟨h1, h2⟩ := ih (seqStep v AB i)
    rw [h1, h2]
    unfold seqStep
    split <;> simp

lemma seqStep_foldl_fst_getElem {α : Type} [Field α] (v : List α) (l : List ℕ)
    (AB : List α × List α) (j : ℕ) (h : ∀ i ∈ l, i % 2 = 0 → i ≠ j) :
    (l.foldl (seqStep v) AB).1[j]? = AB.1[j]? := by
  induction l generalizing AB with
  | nil => rfl
  | cons i l ih =>
    simp only [List.foldl_cons]
    rw [ih (seqStep v AB i) (fun k hk => h k (List.mem_cons_of_mem _ hk))]
    unfold seqStep
    split
    · next hpar => exact List.getElem?_set_ne (h i (List.mem_cons_self i l) hpar)
    · rfl

lemma seqStep_foldl_snd_getElem {α : Type} [Field α] (v : List α) (l : List ℕ)
    (AB : List α × List α) (j : ℕ) (h : ∀ i ∈ l, i % 2 = 1 → i ≠ j) :
    (l.foldl (seqStep v) AB).2[j]? = AB.2[j]? := by
  induction l generalizing AB with
  | nil => rfl
  | cons i l ih =>
    simp only [List.foldl_cons]
    rw [ih (seqStep v AB i) (fun k hk => h k (List.mem_cons_of_mem _ hk))]
    unfold seqStep
    split
    · rfl
    · next hpar => exact List.getElem?_set_ne (h i (List.mem_cons_self i l) (by omega))

/-- Claim C10: for every odd `len ≥ 3` and all `p`, `dt`, `J`, `g`,
`SetSequences len p dt J g` returns two arrays of length `len`, with
`seqA` equal to `0` at every odd index, `seqB` equal to `0` at every even
index (in particular at `0` and `len - 1`), and
`seqA[0] = seqA[len-1] = -J * p * dt / 2`. -/
theorem setSequences_structure {α : Type} [Field α] (len : ℕ) (p dt J g : α)
    (h3 : 3 ≤ len) (hodd : len % 2 = 1) :
    (SetSequences len p dt J g).1.length = len ∧
    (SetSequences len p dt J g).2.length = len ∧
    (∀ i, i < len → i % 2 = 1 → (SetSequences len p dt J g).1.getD i 0 = 0) ∧
    (∀ i, i < len → i % 2 = 0 → (SetSequences len p dt J g).2.getD i 0 = 0) ∧
    (SetSequences len p dt J g).2.getD 0 0 = 0 ∧
    (SetSequences len p dt J g).2.getD (len - 1) 0 = 0 ∧
    (SetSequences len p dt J g).1.getD 0 0 = -J * p * dt / 2 ∧
    (SetSequences len p dt J g).1.getD (len - 1) 0 = -J * p * dt / 2 := by
  set v := setSequencesValues p dt J g with hv
  have hlen1 :
      (SetSequences len p dt J g).1.length = len ∧
      (SetSequences len p dt J g).2.length = len := by
    unfold SetSequences
    obtain ⟨hL1, hL2⟩ := seqStep_foldl_length v (List.range' 1 (len - 2)) _
    rw [← hv]
    constructor
    · rw [hL1]; simp
    · rw [hL2]; simp
  have hB : ∀ i, i < len → i % 2 = 0 →
      (SetSequences len p dt J g).2.getD i 0 = 0 := by
    intro i hi hpar
    unfold SetSequences
    rw [List.getD_eq_getElem?_getD, ← hv,
      seqStep_foldl_snd_getElem v _ _ i (fun k hk hk1 _ => by omega)]
    simp [hi]
  have hA0 : (SetSequences len p dt J g).1.getD 0 0 = -J * p * dt / 2 := by
    unfold SetSequences
    rw [List.getD_eq_getElem?_getD, ← hv,
      seqStep_foldl_fst_getElem v _ _ 0
        (fun k hk _ => by rw [mem_range_one] at hk; omega)]
    rw [List.getElem?_set_ne (by omega)]
    rw [List.getElem?_set_self (by simp; omega)]
    rfl
  have hAlast :
      (SetSequences len p dt J g).1.getD (len - 1) 0 = -J * p * dt / 2 := by
    unfold SetSequences
    rw [List.getD_eq_getElem?_getD, ← hv,
      seqStep_foldl_fst_getElem v _ _ (len - 1)
        (fun k hk _ => by rw [mem_range_one] at hk; omega)]
    rw [List.getElem?_set_self (by simp; omega)]
    rfl
  refine ⟨hlen1.1, hlen1.2, ?_, hB, hB 0 (by omega) (by omega),
    hB (len - 1) (by omega) (by omega), hA0, hAlast⟩
  intro i hi hpar
  unfold SetSequences
  rw [List.getD_eq_getElem?_getD, ← hv,
    seqStep_foldl_fst_getElem v _ _ i (fun k hk hk0 => by omega)]
  rw [List.getElem?_set_ne (by omega), List.getElem?_set_ne (by omega)]
  simp [hi]

/-- Witness for C10: `SetSequences` over `ℚ` at `len = 3`,
`p = dt = J = g = 1`. -/
theorem setSequences_structure_witness :
    (SetSequences (α := ℚ) 3 1 1 1 1).1.getD 0 0 = -1 * 1 * 1 / 2 ∧
    (SetSequences (α := ℚ) 3 1 1 1 1).2.getD 0 0 = 0 ∧
    (SetSequences (α := ℚ) 3 1 1 1 1).1.length = 3 :=
  ⟨(setSequences_structure 3 1 1 1 1 (by decide) (by decide)).2.2.2.2.2.2.1,
   (setSequences_structure 3 1 1 1 1 (by decide) (by decide)).2.2.2.2.1,
   (setSequences_structure 3 1 1 1 1 (by decide) (by decide)).1⟩

/-- One emitted quantum operation: an `Rx` rotation, a `CNOT`, an `Rz`
rotation, or a single-qubit measurement `M`.  Qubits are identified by
their index in the allocated array `qs`. -/
inductive Op (α : Type) : Type where
  | rx : α → ℤ → Op α
  | cnot : ℤ → ℤ → Op α
  | rz : α → ℤ → Op α
  | mz : ℤ → Op α
deriving DecidableEq, Repr

/-- The Q# inclusive integer range `a..b` as a list. -/
def intRange (a b : ℤ) : List ℤ :=
  (List.range (b + 1 - a).toNat).map (fun k : ℕ => a + (k : ℤ))

/-- The Q# stride-2 range `a..2..b` as a list. -/
def intRangeStep2 (a b : ℤ) : List ℤ :=
  (List.range ((b + 2 - a) / 2).toNat).map (fun k : ℕ => a + 2 * (k : ℤ))

lemma mem_intRange {a b x : ℤ} : x ∈ intRange a b ↔ a ≤ x ∧ x ≤ b := by
  unfold intRange
  simp only [List.mem_map, List.mem_range]
  constructor
  · rintro ⟨k, hk, rfl⟩; omega
  · intro h; exact ⟨(x - a).toNat, by omega, by omega⟩

lemma length_intRange {a b : ℤ} : (intRange a b).length = (b + 1 - a).toNat := by
  unfold intRange; simp

lemma mem_intRangeStep2 {a b x : ℤ} (h : x ∈ intRangeStep2 a b) :
    a ≤ x ∧ x ≤ b := by
  unfold intRangeStep2 at h
  simp only [List.mem_map, List.mem_range] at h
  obtain ⟨k, hk, rfl⟩ := h
  omega

lemma length_intRangeStep2 {a b : ℤ} :
    (intRangeStep2 a b).length = ((b + 2 - a) / 2).toNat := by
  unfold intRangeStep2; simp

/-- Embedding of the Q# operation `ApplyAllX(qs, theta)`: it applies
`Rx(2.0 * theta, _)` to each qubit of `qs` (here: the array is given by
its length `nq`), emitting one `Rx` per qubit in index order. -/
def ApplyAllX {α : Type} [Field α] (nq : ℕ) (theta : α) : List (Op α) :=
  (List.range nq).map (fun q : ℕ => Op.rx (2 * theta) (q : ℤ))

/-- Embedding of the Q# operation
`ApplyDoubleZ(n, qs, theta, dir, grp)`: for each lattice row/column pair
selected by `dir` and `grp` it conjugates `Rz(2.0 * theta)` on the second
qubit by a `CNOT` (the `within ... apply` block emits
`CNOT; Rz; CNOT`). -/
def ApplyDoubleZ {α : Type} [Field α] (n : ℤ) (theta : α) (dir grp : Bool) :
    List (Op α) :=
  let start : ℤ := if grp then 0 else 1
  (intRange 0 (n - 1)).flatMap (fun i =>
    (intRangeStep2 start (n - 2)).flatMap (fun j =>
      let rc := if dir then (i, j) else (j, i)
      let ind1 := GetQubitIndex rc.1 rc.2 n
      let ind2 := if dir then GetQubitIndex rc.1 (rc.2 + 1) n
                  else GetQubitIndex (rc.1 + 1) rc.2 n
      [Op.cnot ind1 ind2, Op.rz (2 * theta) ind2, Op.cnot ind1 ind2]))

/-- The constant `p = 1.0 / (4.0 - PowD(4.0, 1.0 / 3.0))` computed inside
`IsingModel2DSim`. -/
noncomputable def pTS : ℝ := 1 / (4 - (4 : ℝ) ^ ((1 : ℝ) / 3))

/-- Embedding of the Q# operation
`IsingModel2DSim(N, J, g, totTime, dt, eps, noops)`.  The value returned
is the trace of emitted operations.  `meas` supplies the outcome of each
single-qubit measurement `M(qs[0])` performed by the final NoOps loop;
the code discards it with `Ignore`, which the embedding mirrors with a
discarded binding.  `eps` (the precision for rotation synthesis) does not
influence which operations are emitted. -/
noncomputable def IsingModel2DSim (meas : ℕ → Bool) (N : ℤ)
    (J g totTime dt eps : ℝ) (noops : ℤ) : List (Op ℝ) :=
  let len := (N * N).toNat
  let p := pTS
  let t : ℤ := ⌈totTime / dt⌉
  let seqLen : ℤ := 10 * t + 1
  let AB := SetSequences seqLen.toNat p dt J g
  ((List.range seqLen.toNat).flatMap (fun i =>
      if i % 2 = 0 then ApplyAllX len (AB.1.getD i 0)
      else
        [(true, true), (true, false), (false, true), (false, false)].flatMap
          (fun dg => ApplyDoubleZ N (AB.2.getD i 0) dg.1 dg.2)))
    ++ (intRange 1 noops).map (fun k =>
          let _r := meas k.toNat
          Op.mz 0)

/-- Claim C6: the circuit construction is deterministic.  The only
run-time nondeterminism available to the program is the outcome of the
measurements `M(qs[0])`, which `Ignore` discards; for every fixed input
tuple, two runs with arbitrary (possibly different) measurement outcomes
emit the identical sequence of operations — same kinds, same angles, same
qubit indices, same order. -/
theorem isingModel2DSim_deterministic (meas1 meas2 : ℕ → Bool) (N : ℤ)
    (J g totTime dt eps : ℝ) (noops : ℤ) :
    IsingModel2DSim meas1 N J g totTime dt eps noops =
    IsingModel2DSim meas2 N J g totTime dt eps noops := rfl

/-- All qubit indices named by an operation lie in `[0, nq)`. -/
def opInBounds {α : Type} (nq : ℤ) : Op α → Prop
  | Op.rx _ q => 0 ≤ q ∧ q < nq
  | Op.cnot c t => 0 ≤ c ∧ c < nq ∧ 0 ≤ t ∧ t < nq
  | Op.rz _ q => 0 ≤ q ∧ q < nq
  | Op.mz q => 0 ≤ q ∧ q < nq

/-- Every operation emitted by `ApplyDoubleZ` touches only indices in
`[0, n*n)`: the inner loop bound `j ≤ n - 2` keeps `col + 1` and
`row + 1` below `n`. -/
lemma applyDoubleZ_opInBounds {α : Type} [Field α] (n : ℤ) (theta : α)
    (dir grp : Bool) :
    ∀ op ∈ ApplyDoubleZ n theta dir grp, opInBounds (n * n) op := by
  intro op hop
  unfold ApplyDoubleZ at hop
  simp only [List.mem_flatMap] at hop
  obtain ⟨i, hi, j, hj, hmem⟩ := hop
  rw [mem_intRange] at hi
  have hj2 := mem_intRangeStep2 hj
  have hstart : (0 : ℤ) ≤ if grp then (0 : ℤ) else 1 := by
    cases grp <;> norm_num
  have hj0 : 0 ≤ j := le_trans hstart hj2.1
  have hjn : j ≤ n - 2 := hj2.2
  have hrc : ∀ row col : ℤ, 0 ≤ row → row < n → 0 ≤ col → col < n →
      ∀ row2 col2 : ℤ, 0 ≤ row2 → row2 < n → 0 ≤ col2 → col2 < n →
      op ∈ ([Op.cnot (GetQubitIndex row col n) (GetQubitIndex row2 col2 n),
             Op.rz (2 * theta) (GetQubitIndex row2 col2 n),
             Op.cnot (GetQubitIndex row col n) (GetQubitIndex row2 col2 n)] :
             List (Op α)) →
      opInBounds (n * n) op := by
    intro row col a1 a2 a3 a4 row2 col2 b1 b2 b3 b4 hm
    obtain ⟨c1, c2⟩ := getQubitIndex_bounds a1 a2 a3 a4
    obtain ⟨d1, d2⟩ := getQubitIndex_bounds b1 b2 b3 b4
    simp only [List.mem_cons, List.not_mem_nil, or_false] at hm
    rcases hm with rfl | rfl | rfl
    · exact ⟨c1, c2, d1, d2⟩
    · exact ⟨d1, d2⟩
    · exact ⟨c1, c2, d1, d2⟩
  cases dir with
  | true =>
    simp only [if_true, reduceIte] at hmem
    exact hrc i j (by omega) (by omega) hj0 (by omega)
      i (j + 1) (by omega) (by omega) (by omega) (by omega) hmem
  | false =>
    simp only [Bool.false_eq_true, if_false, reduceIte] at hmem
    exact hrc j i hj0 (by omega) (by omega) (by omega)
      (j + 1) i (by omega) (by omega) (by omega) (by omega) hmem

/-- Claim C9: for every `n ≥ 1`, all array accesses in `ApplyDoubleZ` are
in bounds — every computed pair `(ind1, ind2)` lies in
`{0, ..., n^2 - 1}` — and for every `N ≥ 1`, `IsingModel2DSim` never
indexes its qubit array out of bounds, including the final `noops`
measurements of `qs[0]`. -/
theorem ising_array_accesses_in_bounds (n : ℤ) (theta : ℝ) (dir grp : Bool)
    (meas : ℕ → Bool) (N : ℤ) (J g totTime dt eps : ℝ) (noops : ℤ)
    (hn : 1 ≤ n) (hN : 1 ≤ N) :
    (∀ op ∈ ApplyDoubleZ n theta dir grp, opInBounds (n ^ 2) op) ∧
    (∀ op ∈ IsingModel2DSim meas N J g totTime dt eps noops,
      opInBounds (N ^ 2) op) := by
  constructor
  · intro op hop
    rw [sq n]
    exact applyDoubleZ_opInBounds n theta dir grp op hop
  · intro op hop
    rw [sq N]
    unfold IsingModel2DSim at hop
    simp only [List.mem_append, List.mem_flatMap, List.mem_map] at hop
    rcases hop with (⟨i, hi, hopi⟩ | ⟨k, hk, hopk⟩)
    · by_cases hpar : i % 2 = 0
      · rw [if_pos hpar] at hopi
        unfold ApplyAllX at hopi
        simp only [List.mem_map, List.mem_range] at hopi
        obtain ⟨q, hq, rfl⟩ := hopi
        have hcast : ((N * N).toNat : ℤ) = N * N :=
          Int.toNat_of_nonneg (mul_nonneg (by omega) (by omega))
        exact ⟨Int.natCast_nonneg q, by omega⟩
      · rw [if_neg hpar] at hopi
        simp only [List.mem_flatMap] at hopi
        obtain ⟨dg, _, hopdg⟩ := hopi
        exact applyDoubleZ_opInBounds N _ dg.1 dg.2 op hopdg
    · rw [← hopk]
      refine ⟨le_refl 0, ?_⟩
      nlinarith

/-- Witness for C9 at `n = 2`, `N = 1` (and arbitrary other
concrete arguments). -/
theorem ising_array_accesses_in_bounds_witness :
    (∀ op ∈ ApplyDoubleZ (α := ℝ) 2 0 true true, opInBounds (2 ^ 2) op) ∧
    (∀ op ∈ IsingModel2DSim (fun _ => false) 1 0 0 0 1 0 0,
      opInBounds ((1 : ℤ) ^ 2) op) :=
  ising_array_accesses_in_bounds 2 0 true true (fun _ => false) 1 0 0 0 1 0 0
    (by decide) (by decide)

def isRx {α : Type} : Op α → Bool
  | Op.rx _ _ => true
  | _ => false

def isRz {α : Type} : Op α → Bool
  | Op.rz _ _ => true
  | _ => false

def isCnot {α : Type} : Op α → Bool
  | Op.cnot _ _ => true
  | _ => false

/-- Number of `Rx` rotations in a trace. -/
def countRx {α : Type} (l : List (Op α)) : ℕ := l.countP isRx

/-- Number of `Rz` rotations in a trace. -/
def countRz {α : Type} (l : List (Op α)) : ℕ := l.countP isRz

/-- Number of `CNOT` gates in a trace. -/
def countCnot {α : Type} (l : List (Op α)) : ℕ := l.countP isCnot

lemma countP_flatMap {α β : Type} (p : β → Bool) (l : List α)
    (f : α → List β) :
    (l.flatMap f).countP p = (l.map (fun a => (f a).countP p)).sum := by
  induction l with
  | nil => rfl
  | cons x l ih => simp [List.flatMap_cons, List.countP_append, ih]

lemma sum_map_eq_length_mul {β : Type} (l : List β) (F : β → ℕ) (c : ℕ)
    (h : ∀ b ∈ l, F b = c) : (l.map F).sum = l.length * c := by
  induction l with
  | nil => simp
  | cons x l ih =>
    simp only [List.map_cons, List.sum_cons, List.length_cons]
    rw [h x (List.mem_cons_self x l),
      ih (fun b hb => h b (List.mem_cons_of_mem _ hb))]
    ring

lemma countRx_applyAllX {α : Type} [Field α] (nq : ℕ) (theta : α) :
    countRx (ApplyAllX nq theta) = nq := by
  unfold countRx ApplyAllX
  rw [List.countP_map]
  have h : (isRx ∘ fun q : ℕ => (Op.rx (2 * theta) (q : ℤ) : Op α)) =
      fun _ => true := by
    funext q; rfl
  rw [h, List.countP_true, List.length_range]

lemma countRz_applyAllX {α : Type} [Field α] (nq : ℕ) (theta : α) :
    countRz (ApplyAllX nq theta) = 0 := by
  unfold countRz ApplyAllX
  rw [List.countP_map]
  have h : (isRz ∘ fun q : ℕ => (Op.rx (2 * theta) (q : ℤ) : Op α)) =
      fun _ => false := by
    funext q; rfl
  rw [h, List.countP_false]
  rfl

lemma countCnot_applyAllX {α : Type} [Field α] (nq : ℕ) (theta : α) :
    countCnot (ApplyAllX nq theta) = 0 := by
  unfold countCnot ApplyAllX
  rw [List.countP_map]
  have h : (isCnot ∘ fun q : ℕ => (Op.rx (2 * theta) (q : ℤ) : Op α)) =
      fun _ => false := by
    funext q; rfl
  rw [h, List.countP_false]
  rfl

lemma countRz_applyDoubleZ {α : Type} [Field α] (n : ℤ) (theta : α)
    (dir grp : Bool) :
    countRz (ApplyDoubleZ n theta dir grp) =
      n.toNat * ((n - (if grp then 0 else 1)) / 2).toNat := by
  unfold countRz ApplyDoubleZ
  rw [countP_flatMap]
  have hinner : ∀ i : ℤ,
      ((intRangeStep2 (if grp then 0 else 1) (n - 2)).flatMap (fun j =>
        let rc := if dir then (i, j) else (j, i)
        let ind1 := GetQubitIndex rc.1 rc.2 n
        let ind2 := if dir then GetQubitIndex rc.1 (rc.2 + 1) n
                    else GetQubitIndex (rc.1 + 1) rc.2 n
        [Op.cnot ind1 ind2, Op.rz (2 * theta) ind2,
         Op.cnot ind1 ind2])).countP isRz =
      ((n - (if grp then 0 else 1)) / 2).toNat := by
    intro i
    rw [countP_flatMap]
    rw [sum_map_eq_length_mul _ _ 1 (fun j _ => by
      simp [List.countP_cons, isRz, isCnot])]
    rw [length_intRangeStep2, Nat.mul_one]
    congr 1
    omega
  rw [sum_map_eq_length_mul _ _ (((n - (if grp then 0 else 1)) / 2).toNat)
    (fun i _ => hinner i)]
  rw [length_intRange]
  congr 1
  omega

lemma countCnot_applyDoubleZ {α : Type} [Field α] (n : ℤ) (theta : α)
    (dir grp : Bool) :
    countCnot (ApplyDoubleZ n theta dir grp) =
      n.toNat * ((n - (if grp then 0 else 1)) / 2).toNat * 2 := by
  unfold countCnot ApplyDoubleZ
  rw [countP_flatMap]
  have hinner : ∀ i : ℤ,
      ((intRangeStep2 (if grp then 0 else 1) (n - 2)).flatMap (fun j =>
        let rc := if dir then (i, j) else (j, i)
        let ind1 := GetQubitIndex rc.1 rc.2 n
        let ind2 := if dir then GetQubitIndex rc.1 (rc.2 + 1) n
                    else GetQubitIndex (rc.1 + 1) rc.2 n
        [Op.cnot ind1 ind2, Op.rz (2 * theta) ind2,
         Op.cnot ind1 ind2])).countP isCnot =
      ((n - (if grp then 0 else 1)) / 2).toNat * 2 := by
    intro i
    rw [countP_flatMap]
    rw [sum_map_eq_length_mul _ _ 2 (fun j _ => by
      simp [List.countP_cons, isRz, isCnot])]
    rw [length_intRangeStep2]
    congr 1
    omega
  rw [sum_map_eq_length_mul _ _ (((n - (if grp then 0 else 1)) / 2).toNat * 2)
    (fun i _ => hinner i)]
  rw [length_intRange]
  have h : (n - 1 + 1 - 0).toNat = n.toNat := by omega
  rw [h, Nat.mul_assoc]

lemma countRx_applyDoubleZ {α : Type} [Field α] (n : ℤ) (theta : α)
    (dir grp : Bool) :
    countRx (ApplyDoubleZ n theta dir grp) = 0 := by
  unfold countRx
  rw [List.countP_eq_zero]
  intro op hop
  unfold ApplyDoubleZ at hop
  simp only [List.mem_flatMap] at hop
  obtain ⟨i, _, j, _, hmem⟩ := hop
  simp only [List.mem_cons, List.not_mem_nil, or_false] at hmem
  rcases hmem with rfl | rfl | rfl <;> simp [isRx]

/-- One odd-index layer of `IsingModel2DSim`: `ApplyDoubleZ` for all four
combinations of `dir` and `grp`. -/
def zzLayer {α : Type} [Field α] (N : ℤ) (theta : α) : List (Op α) :=
  [(true, true), (true, false), (false, true), (false, false)].flatMap
    (fun dg => ApplyDoubleZ N theta dg.1 dg.2)

lemma countRz_zzLayer {α : Type} [Field α] (N : ℤ) (theta : α) (hN : 1 ≤ N) :
    countRz (zzLayer N theta) = 2 * N.toNat * (N - 1).toNat := by
  have e1 := countRz_applyDoubleZ N theta true true
  have e2 := countRz_applyDoubleZ N theta true false
  have e3 := countRz_applyDoubleZ N theta false true
  have e4 := countRz_applyDoubleZ N theta false false
  norm_num at e1 e2 e3 e4
  unfold countRz at e1 e2 e3 e4 ⊢
  unfold zzLayer
  simp only [List.flatMap_cons, List.flatMap_nil, List.append_nil,
    List.countP_append]
  rw [e1, e2, e3, e4]
  have huv : (N / 2).toNat + ((N - 1) / 2).toNat = (N - 1).toNat := by
    omega
  rw [← huv]
  ring

lemma countCnot_zzLayer {α : Type} [Field α] (N : ℤ) (theta : α)
    (hN : 1 ≤ N) :
    countCnot (zzLayer N theta) = 2 * (2 * N.toNat * (N - 1).toNat) := by
  have e1 := countCnot_applyDoubleZ N theta true true
  have e2 := countCnot_applyDoubleZ N theta true false
  have e3 := countCnot_applyDoubleZ N theta false true
  have e4 := countCnot_applyDoubleZ N theta false false
  norm_num at e1 e2 e3 e4
  unfold countCnot at e1 e2 e3 e4 ⊢
  unfold zzLayer
  simp only [List.flatMap_cons, List.flatMap_nil, List.append_nil,
    List.countP_append]
  rw [e1, e2, e3, e4]
  have huv : (N / 2).toNat + ((N - 1) / 2).toNat = (N - 1).toNat := by
    omega
  rw [← huv]
  ring

lemma countRx_zzLayer {α : Type} [Field α] (N : ℤ) (theta : α) :
    countRx (zzLayer N theta) = 0 := by
  have e1 := countRx_applyDoubleZ N theta true true
  have e2 := countRx_applyDoubleZ N theta true false
  have e3 := countRx_applyDoubleZ N theta false true
  have e4 := countRx_applyDoubleZ N theta false false
  unfold countRx at e1 e2 e3 e4 ⊢
  unfold zzLayer
  simp only [List.flatMap_cons, List.flatMap_nil, List.append_nil,
    List.countP_append]
  rw [e1, e2, e3, e4]

/-- The sequence length `10 * t + 1` computed by `IsingModel2DSim` (as a
natural number; `t = ⌈totTime / dt⌉`). -/
noncomputable def isingSeqLen (totTime dt : ℝ) : ℕ :=
  (10 * ⌈totTime / dt⌉ + 1).toNat

/-- The `i`-th exponential group of the main loop of `IsingModel2DSim`:
an `ApplyAllX` layer at even `i`, a full four-pass `ApplyDoubleZ` layer
at odd `i`. -/
noncomputable def isingGroup (N : ℤ) (J g totTime dt : ℝ) (i : ℕ) :
    List (Op ℝ) :=
  if i % 2 = 0 then
    ApplyAllX (N * N).toNat
      ((SetSequences (isingSeqLen totTime dt) pTS dt J g).1.getD i 0)
  else
    zzLayer N ((SetSequences (isingSeqLen totTime dt) pTS dt J g).2.getD i 0)

/-- `IsingModel2DSim` is exactly the concatenation of its
`10 * t + 1` exponential groups followed by the `noops` measurements. -/
lemma isingModel2DSim_eq_groups (meas : ℕ → Bool) (N : ℤ)
    (J g totTime dt eps : ℝ) (noops : ℤ) :
    IsingModel2DSim meas N J g totTime dt eps noops =
      (List.range (isingSeqLen totTime dt)).flatMap
        (isingGroup N J g totTime dt)
      ++ (intRange 1 noops).map (fun _ => Op.mz 0) := rfl

lemma sum_map_range_alternating (a b m : ℕ) :
    ((List.range (2 * m + 1)).map (fun i => if i % 2 = 0 then a else b)).sum
      = (m + 1) * a + m * b := by
  induction m with
  | zero => rw [List.range_succ]; simp
  | succ m ih =>
    have h1 : 2 * (m + 1) + 1 = (2 * m + 1) + 1 + 1 := by ring
    rw [h1, List.range_succ, List.range_succ, List.map_append,
      List.map_append, List.sum_append, List.sum_append, ih]
    have hp1 : ((2 * m + 1) % 2 = 0) = False := by simp; omega
    have hp2 : ((2 * m + 1 + 1) % 2 = 0) = True := by simp; omega
    simp only [List.map_cons, List.map_nil, List.sum_cons, List.sum_nil,
      hp1, hp2, if_true, if_false]
    ring

lemma countRx_isingGroup (N : ℤ) (J g totTime dt : ℝ) (i : ℕ) :
    countRx (isingGroup N J g totTime dt i) =
      if i % 2 = 0 then (N * N).toNat else 0 := by
  unfold isingGroup
  by_cases h : i % 2 = 0
  · rw [if_pos h, if_pos h, countRx_applyAllX]
  · rw [if_neg h, if_neg h, countRx_zzLayer]

lemma countRz_isingGroup (N : ℤ) (J g totTime dt : ℝ) (hN : 1 ≤ N) (i : ℕ) :
    countRz (isingGroup N J g totTime dt i) =
      if i % 2 = 0 then 0 else 2 * N.toNat * (N - 1).toNat := by
  unfold isingGroup
  by_cases h : i % 2 = 0
  · rw [if_pos h, if_pos h, countRz_applyAllX]
  · rw [if_neg h, if_neg h, countRz_zzLayer N _ hN]

lemma countCnot_isingGroup (N : ℤ) (J g totTime dt : ℝ) (hN : 1 ≤ N)
    (i : ℕ) :
    countCnot (isingGroup N J g totTime dt i) =
      if i % 2 = 0 then 0 else 2 * (2 * N.toNat * (N - 1).toNat) := by
  unfold isingGroup
  by_cases h : i % 2 = 0
  · rw [if_pos h, if_pos h, countCnot_applyAllX]
  · rw [if_neg h, if_neg h, countCnot_zzLayer N _ hN]

lemma countP_mzTail (noops : ℤ) (p : Op ℝ → Bool) (hp : p (Op.mz 0) = false) :
    ((intRange 1 noops).map (fun _ => (Op.mz 0 : Op ℝ))).countP p = 0 := by
  rw [List.countP_eq_zero]
  intro op hop
  simp only [List.mem_map] at hop
  obtain ⟨k, _, rfl⟩ := hop
  simp [hp]

lemma ising_count (meas : ℕ → Bool) (N : ℤ) (J g totTime dt eps : ℝ)
    (noops : ℤ) (p : Op ℝ → Bool) (hp : p (Op.mz 0) = false) (a b : ℕ)
    (hgroup : ∀ i : ℕ, (isingGroup N J g totTime dt i).countP p =
      if i % 2 = 0 then a else b)
    (m : ℕ) (hm : isingSeqLen totTime dt = 2 * m + 1) :
    (IsingModel2DSim meas N J g totTime dt eps noops).countP p =
      (m + 1) * a + m * b := by
  rw [isingModel2DSim_eq_groups, List.countP_append, countP_mzTail _ _ hp,
    Nat.add_zero, countP_flatMap, hm]
  have heq : List.map (fun i => List.countP p (isingGroup N J g totTime dt i))
      (List.range (2 * m + 1)) =
      List.map (fun i => if i % 2 = 0 then a else b)
        (List.range (2 * m + 1)) :=
    List.map_congr_left (fun i _ => hgroup i)
  rw [heq, sum_map_range_alternating]

/-- Claim C2: for `N ≥ 1`, `totTime > 0`, `dt > 0` and
`t = ⌈totTime / dt⌉`, `IsingModel2DSim` computes the sequence length
`10 * t + 1` and its main loop performs exactly one exponential group per
index `0 ≤ i < 10 * t + 1`: one `ApplyAllX` layer (of `N * N` `Rx`
gates) at each even `i` and one full four-pass `ApplyDoubleZ` layer (of
`2N(N-1)` `Rz` gates, each conjugated by two `CNOT`s) at each odd `i` —
so the trace decomposes into those `10 * t + 1` groups and carries
`(5t+1)·N²` `Rx` rotations and `5t·2N(N-1)` `Rz` rotations in total. -/
theorem isingModel2DSim_term_count (meas : ℕ → Bool) (N : ℤ)
    (J g totTime dt eps : ℝ) (noops : ℤ)
    (hN : 1 ≤ N) (hdt : 0 < dt) (htot : 0 < totTime) :
    1 ≤ ⌈totTime / dt⌉ ∧
    isingSeqLen totTime dt = 10 * ⌈totTime / dt⌉.toNat + 1 ∧
    IsingModel2DSim meas N J g totTime dt eps noops =
      (List.range (isingSeqLen totTime dt)).flatMap
        (isingGroup N J g totTime dt)
      ++ (intRange 1 noops).map (fun _ => Op.mz 0) ∧
    countRx (IsingModel2DSim meas N J g totTime dt eps noops) =
      (5 * ⌈totTime / dt⌉.toNat + 1) * (N * N).toNat ∧
    countRz (IsingModel2DSim meas N J g totTime dt eps noops) =
      5 * ⌈totTime / dt⌉.toNat * (2 * N.toNat * (N - 1).toNat) ∧
    countCnot (IsingModel2DSim meas N J g totTime dt eps noops) =
      2 * (5 * ⌈totTime / dt⌉.toNat * (2 * N.toNat * (N - 1).toNat)) := by
  have ht0 : 0 < ⌈totTime / dt⌉ := Int.ceil_pos.mpr (div_pos htot hdt)
  have ht : 1 ≤ ⌈totTime / dt⌉ := ht0
  have hm : isingSeqLen totTime dt = 2 * (5 * ⌈totTime / dt⌉.toNat) + 1 := by
    unfold isingSeqLen; omega
  have h2 : isingSeqLen totTime dt = 10 * ⌈totTime / dt⌉.toNat + 1 := by
    unfold isingSeqLen; omega
  refine ⟨ht, h2, isingModel2DSim_eq_groups meas N J g totTime dt eps noops,
    ?_, ?_, ?_⟩
  · have hc := ising_count meas N J g totTime dt eps noops isRx rfl
      ((N * N).toNat) 0 (fun i => countRx_isingGroup N J g totTime dt i)
      (5 * ⌈totTime / dt⌉.toNat) hm
    unfold countRx
    rw [hc]
    simp
  · have hc := ising_count meas N J g totTime dt eps noops isRz rfl
      0 (2 * N.toNat * (N - 1).toNat)
      (fun i => countRz_isingGroup N J g totTime dt hN i)
      (5 * ⌈totTime / dt⌉.toNat) hm
    unfold countRz
    rw [hc]
    simp
  · have hc := ising_count meas N J g totTime dt eps noops isCnot rfl
      0 (2 * (2 * N.toNat * (N - 1).toNat))
      (fun i => countCnot_isingGroup N J g totTime dt hN i)
      (5 * ⌈totTime / dt⌉.toNat) hm
    unfold countCnot
    rw [hc]
    simp
    ring

/-- Witness for C2 at `N = 1`, `totTime = dt = 1` (so `t = 1` and the
trace holds `6 · 1 = 6` `Rx` rotations in `11` groups). -/
theorem isingModel2DSim_term_count_witness :
    1 ≤ ⌈(1 : ℝ) / 1⌉ ∧
    countRx (IsingModel2DSim (fun _ => false) 1 0 0 1 1 0 0) =
      (5 * ⌈(1 : ℝ) / 1⌉.toNat + 1) * ((1 : ℤ) * 1).toNat :=
  ⟨(isingModel2DSim_term_count (fun _ => false) 1 0 0 1 1 0 0
      (by decide) zero_lt_one zero_lt_one).1,
   (isingModel2DSim_term_count (fun _ => false) 1 0 0 1 1 0 0
      (by decide) zero_lt_one zero_lt_one).2.2.2.1⟩

lemma pTS_pos : 0 < pTS := by
  unfold pTS
  have h1 : (4 : ℝ) ^ ((1 : ℝ) / 3) < 4 ^ (1 : ℝ) :=
    Real.rpow_lt_rpow_of_exponent_lt (by norm_num) (by norm_num)
  rw [Real.rpow_one] at h1
  have h2 : 0 < 4 - (4 : ℝ) ^ ((1 : ℝ) / 3) := by linarith
  exact div_pos zero_lt_one h2

/-- The first entry of the `seqA` array built by `SetSequences`
(the angle consumed by the very first `ApplyAllX` layer). -/
lemma setSequences_fst_head {α : Type} [Field α] (len : ℕ) (p dt J g : α)
    (h3 : 3 ≤ len) :
    (SetSequences len p dt J g).1.getD 0 0 = -J * p * dt / 2 := by
  unfold SetSequences
  rw [List.getD_eq_getElem?_getD,
    seqStep_foldl_fst_getElem _ _ _ 0
      (fun k hk _ => by rw [mem_range_one] at hk; omega)]
  rw [List.getElem?_set_ne (by omega), List.getElem?_set_self (by simp; omega)]
  rfl

/-- Claim C1 is refuted by the code (code bug): the notebook's own
formula assigns the transverse-field term `A = g·ΣX` the factors
`g·p·dt/2, g·p·dt, ...` at even positions (applied by `ApplyAllX`) and
the interaction term `B = -J·ΣZZ` the factors `-J·p·dt, ...` at odd
positions, but `SetSequences` swaps the two prefactors: at the concrete
input `N = 1`, `J = 1`, `g = 0`, `totTime = dt = 1` (so `len = 11`), the
angle at even position `0` is `-J·p·dt/2 = -p/2 ≠ 0 = g·p·dt/2`, and the
first operation actually emitted by `IsingModel2DSim` is an `Rx` through
that `J`-scaled angle rather than the formula's `g`-scaled one. -/
theorem setSequences_swaps_couplings :
    (SetSequences 11 pTS (1 : ℝ) 1 0).1.getD 0 0 = -1 * pTS * 1 / 2 ∧
    -1 * pTS * 1 / 2 ≠ (0 : ℝ) * pTS * 1 / 2 ∧
    (IsingModel2DSim (fun _ => false) 1 1 0 1 1 0 0).head? =
      some (Op.rx (2 * ((SetSequences 11 pTS (1 : ℝ) 1 0).1.getD 0 0)) 0) := by
  have hseq : isingSeqLen 1 1 = 11 := by
    unfold isingSeqLen
    norm_num
    decide
  refine ⟨setSequences_fst_head 11 pTS 1 1 0 (by norm_num), ?_, ?_⟩
  · have hp := pTS_pos
    intro heq
    rw [zero_mul, zero_mul, zero_div] at heq
    nlinarith
  · rw [isingModel2DSim_eq_groups]
    have hr : List.range (isingSeqLen 1 1) =
        0 :: [1, 2, 3, 4, 5, 6, 7, 8, 9, 10] := by
      rw [hseq]; rfl
    rw [hr, List.flatMap_cons]
    have hg : isingGroup 1 1 0 1 1 0 =
        [Op.rx (2 * ((SetSequences 11 pTS (1 : ℝ) 1 0).1.getD 0 0)) 0] := by
      unfold isingGroup
      rw [if_pos rfl, hseq]
      unfold ApplyAllX
      norm_num [List.range_succ]
    rw [hg]
    rfl

/-- Python's built-in `round`: round half to even (banker's rounding). -/
def pyRound (x : ℚ) : ℤ :=
  if x - ⌊x⌋ = 1 / 2 then (if ⌊x⌋ % 2 = 0 then ⌊x⌋ else ⌊x⌋ + 1)
  else round x

/-- `⌊log₁₀ x⌋` for positive rationals (used to model Python's `.1e`
float formatting). -/
def log10floor (x : ℚ) : ℤ :=
  if 1 ≤ x then (Nat.log 10 ⌊x⌋.toNat : ℤ)
  else -(Nat.clog 10 ⌈1 / x⌉.toNat : ℤ)

/-- The exponent field of Python's scientific notation: sign followed by
at least two digits. -/
def expDigits (e : ℤ) : String :=
  (if e < 0 then "-" else "+") ++
  (if e.natAbs < 10 then "0" ++ toString e.natAbs else toString e.natAbs)

/-- Python's `f"{x:.1e}"` for positive `x`: one integer digit, one
decimal digit, exponent. -/
def fmtSci1Pos (x : ℚ) : String :=
  let e := log10floor x
  let d := pyRound (x / (10 : ℚ) ^ e * 10)
  if d = 100 then "1.0e" ++ expDigits (e + 1)
  else toString (d / 10) ++ "." ++ toString (d % 10) ++ "e" ++ expDigits e

/-- Python's `f"{x:.1e}"` (scientific notation with one decimal
digit). -/
def fmtSci1 (x : ℚ) : String :=
  if x = 0 then "0.0e+00"
  else if x < 0 then "-" ++ fmtSci1Pos (-x)
  else fmtSci1Pos x

/-- Python's `f"{x:.precf}"` for nonnegative `x`: fixed-point with
`prec` decimal digits (round half to even on the scaled value). -/
def fmtFixedPos (prec : ℕ) (x : ℚ) : String :=
  let n := pyRound (x * 10 ^ prec)
  toString (n / 10 ^ prec) ++ "." ++
    (toString ((10 : ℤ) ^ prec + n % 10 ^ prec)).drop 1

/-- Python's `f"{x:.precf}"` (fixed-point formatting). -/
def fmtFixed (prec : ℕ) (x : ℚ) : String :=
  if x < 0 then "-" ++ fmtFixedPos prec (-x) else fmtFixedPos prec x

/-- The `units` table of `get_row`: unit name and conversion factor from
the previous unit. -/
def runtimeUnits : List (String × ℤ) :=
  [("nanosecs", 1), ("microsecs", 1000), ("millisecs", 1000),
   ("secs", 1000), ("mins", 60), ("hours", 60), ("days", 24),
   ("years", 365)]

/-- The runtime-normalization loop of `get_row`
(`for idx in range(1, len(units)): ...`): `prev` is `units[idx - 1][0]`,
the list argument is `units[idx:]`, `rf` is `runtime_formatted`.  If the
loop never breaks, the trailing `isinstance(..., float)` branch formats
the value with the last unit name. -/
def runtimeLoop : String → List (String × ℤ) → ℚ → String
  | prev, [], rf => toString (pyRound rf) ++ " " ++ prev
  | prev, (name, f) :: rest, rf =>
      if rf / (f : ℚ) < 1 then toString (pyRound rf % f) ++ " " ++ prev
      else runtimeLoop name rest (rf / (f : ℚ))

/-- The complete runtime normalization of `get_row` on a runtime given
in nanoseconds. -/
def formatRuntime (runtime : ℚ) : String :=
  runtimeLoop "nanosecs" runtimeUnits.tail runtime

/-- One result record of the resource estimator, restricted to the eight
fields `get_row` accesses (Python numbers modelled by `ℚ`). -/
structure EstimateResult : Type where
  algorithmicLogicalQubits : ℚ
  logicalDepth : ℚ
  numTstates : ℚ
  codeDistance : ℚ
  numTfactories : ℚ
  physicalQubitsForTfactories : ℚ
  physicalQubits : ℚ
  runtime : ℚ
deriving DecidableEq, Repr

/-- One formatted display row of the dashboard. -/
abbrev DisplayRow : Type := ℚ × String × String × ℚ × ℚ × String × String × String

/-- Embedding of the Python `get_row` inside `dashboard`: extracts the
eight fields, formats depth and T-state counts in scientific notation,
the T-factory fraction as a percentage, the physical-qubit count in
millions, and normalizes the runtime.  `none` models the
`ZeroDivisionError` raised when `physicalQubits = 0`. -/
def get_row (result : EstimateResult) : Option DisplayRow :=
  if result.physicalQubits = 0 then none
  else
    some (result.algorithmicLogicalQubits,
      fmtSci1 result.logicalDepth,
      fmtSci1 result.numTstates,
      result.codeDistance,
      result.numTfactories,
      fmtFixed 1 (result.physicalQubitsForTfactories /
        result.physicalQubits * 100) ++ "%",
      fmtFixed 2 (result.physicalQubits / 1000000) ++ "M",
      formatRuntime result.runtime)

/-- Embedding of the Python `dashboard`: one formatted row per record
(`none` if some `get_row` call raises), returned together with the
results store, which the function only reads. -/
def dashboard (results : List EstimateResult) :
    Option (List DisplayRow) × List EstimateResult :=
  (results.mapM get_row, results)

/-- Claim C7: the result records are read-only under formatting — for
every results collection, after `dashboard results` returns, the store
of result records is unchanged (every field of every record is intact);
`dashboard` and `get_row` only read the response objects. -/
theorem dashboard_preserves_results (results : List EstimateResult) :
    (dashboard results).2 = results := rfl

/-- Counterexample to claim C3 as stated: the record whose eight fields
are all present and equal to the nonnegative number `0` makes `get_row`
raise a `ZeroDivisionError` (modelled by `none`) in the T-factory
fraction `physicalQubitsForTfactories / physicalQubits * 100`, instead
of returning an 8-tuple. -/
theorem get_row_zero_division :
    get_row (EstimateResult.mk 0 0 0 0 0 0 0 0) = none ∧
    (EstimateResult.mk 0 0 0 0 0 0 0 0).physicalQubits = 0 := ⟨rfl, rfl⟩

/-- Claim C3 (amended): for every result record whose eight accessed
fields are present as nonnegative numbers *and whose
`physicalCounts.physicalQubits` is positive*, `get_row` returns an
8-tuple without raising any error. -/
theorem get_row_total (r : EstimateResult)
    (h1 : 0 ≤ r.algorithmicLogicalQubits) (h2 : 0 ≤ r.logicalDepth)
    (h3 : 0 ≤ r.numTstates) (h4 : 0 ≤ r.codeDistance)
    (h5 : 0 ≤ r.numTfactories) (h6 : 0 ≤ r.physicalQubitsForTfactories)
    (h7 : 0 < r.physicalQubits) (h8 : 0 ≤ r.runtime) :
    (get_row r).isSome = true := by
  unfold get_row
  rw [if_neg (ne_of_gt h7)]
  rfl

/-- Witness for C3 at a concrete record with `physicalQubits = 1`. -/
theorem get_row_total_witness :
    (get_row (EstimateResult.mk 0 0 0 0 0 0 1 0)).isSome = true :=
  get_row_total (EstimateResult.mk 0 0 0 0 0 0 1 0) (by decide) (by decide)
    (by decide) (by decide) (by decide) (by decide) (by decide) (by decide)

/-- Counterexample to claim C5 as stated: a record with all eight fields
present but `physicalQubits = 0` is not projected into display columns
at all — `get_row` raises (returns `none`) instead. -/
theorem get_row_projection_fails_at_zero :
    get_row (EstimateResult.mk 1 1 1 1 1 1 0 1) = none ∧
    (get_row (EstimateResult.mk 1 1 1 1 1 1 0 1)).isSome = false :=
  ⟨rfl, rfl⟩

/-- Claim C5 (amended): for every result record with the accessed fields
present *and `physicalQubits ≠ 0`*, `get_row` projects exactly the eight
named fields into the eight display columns: logical qubit count, code
distance and T-factory count pass through unchanged; logical depth and
T-state count are rendered in scientific notation with one decimal
digit; the T-factory fraction is
`physicalQubitsForTfactories / physicalQubits * 100` with one decimal
digit and a trailing `%`; the physical qubit count is divided by `10^6`
and rendered with two decimal digits and a trailing `M`; the runtime is
normalized to a time unit. -/
theorem get_row_projection (r : EstimateResult)
    (hq : r.physicalQubits ≠ 0) :
    get_row r = some (r.algorithmicLogicalQubits,
      fmtSci1 r.logicalDepth,
      fmtSci1 r.numTstates,
      r.codeDistance,
      r.numTfactories,
      fmtFixed 1 (r.physicalQubitsForTfactories / r.physicalQubits * 100)
        ++ "%",
      fmtFixed 2 (r.physicalQubits / 1000000) ++ "M",
      formatRuntime r.runtime) := by
  unfold get_row
  rw [if_neg hq]

/-- Witness for C5 at a concrete record. -/
theorem get_row_projection_witness :
    get_row (EstimateResult.mk 25 2 3 11 13 5 7 999700) =
      some ((25 : ℚ),
        fmtSci1 2,
        fmtSci1 3,
        (11 : ℚ),
        (13 : ℚ),
        fmtFixed 1 ((5 : ℚ) / 7 * 100) ++ "%",
        fmtFixed 2 ((7 : ℚ) / 1000000) ++ "M",
        formatRuntime 999700) :=
  get_row_projection (EstimateResult.mk 25 2 3 11 13 5 7 999700) (by decide)

/-- Counterexample to claim C4 as stated: at runtime `999700` ns the
largest unit whose scaled runtime is at least `1.0` is microseconds
(`999700 / 1000 = 999.7 ≥ 1`, `999700 / 10^6 < 1`), and the scaled
runtime rounded to the nearest integer is `1000`, but the code renders
`round(999.7) % 1000 = 0` and prints `"0 microsecs"` instead of
`"1000 microsecs"`. -/
theorem formatRuntime_mod_bug :
    formatRuntime 999700 = "0" ++ " " ++ "microsecs" ∧
    (1 : ℚ) ≤ (999700 : ℚ) / 1000 ∧
    (999700 : ℚ) / 1000000 < 1 ∧
    pyRound ((999700 : ℚ) / 1000) = 1000 ∧
    formatRuntime 999700 ≠
      toString (pyRound ((999700 : ℚ) / 1000)) ++ " " ++ "microsecs" := by
  have hpy : pyRound ((999700 : ℚ) / 1000) = 1000 := by
    unfold pyRound
    rw [if_neg (by norm_num)]
    rw [round_eq]
    norm_num
  have hfmt : formatRuntime 999700 = "0" ++ " " ++ "microsecs" := by
    unfold formatRuntime runtimeUnits
    simp only [List.tail_cons, runtimeLoop]
    push_cast
    rw [if_neg (by norm_num), if_pos (by norm_num)]
    rw [hpy]
    norm_num
    decide
  refine ⟨hfmt, by norm_num, by norm_num, hpy, ?_⟩
  rw [hfmt, hpy]
  decide

/-- Claim C4 (amended): the runtime normalization selects the largest
unit among nanosecs (`< 10^3` ns), microsecs, millisecs, secs, mins,
hours, days, years for which the runtime scaled to that unit is at least
`1.0` (falling back to nanosecs below `1.0` ns), and the formatted
string is the scaled runtime rounded to the nearest integer (ties to
even) *reduced modulo the next unit's conversion factor*, followed by
the unit's name; only in the years case is the rounded value printed
without the modulus. -/
theorem formatRuntime_unit_selection (r : ℚ) :
    (r < 1000 →
      formatRuntime r = toString (pyRound r % 1000) ++ " " ++ "nanosecs") ∧
    (1000 ≤ r → r < 1000000 →
      formatRuntime r =
        toString (pyRound (r / 1000) % 1000) ++ " " ++ "microsecs") ∧
    (1000000 ≤ r → r < 1000000000 →
      formatRuntime r =
        toString (pyRound (r / 1000000) % 1000) ++ " " ++ "millisecs") ∧
    (1000000000 ≤ r → r < 60000000000 →
      formatRuntime r =
        toString (pyRound (r / 1000000000) % 60) ++ " " ++ "secs") ∧
    (60000000000 ≤ r → r < 3600000000000 →
      formatRuntime r =
        toString (pyRound (r / 60000000000) % 60) ++ " " ++ "mins") ∧
    (3600000000000 ≤ r → r < 86400000000000 →
      formatRuntime r =
        toString (pyRound (r / 3600000000000) % 24) ++ " " ++ "hours") ∧
    (86400000000000 ≤ r → r < 31536000000000000 →
      formatRuntime r =
        toString (pyRound (r / 86400000000000) % 365) ++ " " ++ "days") ∧
    (31536000000000000 ≤ r →
      formatRuntime r =
        toString (pyRound (r / 31536000000000000)) ++ " " ++ "years") := by
  have e2 : r / 1000 / 1000 = r / 1000000 := by ring
  have e3 : r / 1000000 / 1000 = r / 1000000000 := by ring
  have e4 : r / 1000000000 / 60 = r / 60000000000 := by ring
  have e5 : r / 60000000000 / 60 = r / 3600000000000 := by ring
  have e6 : r / 3600000000000 / 24 = r / 86400000000000 := by ring
  have e7 : r / 86400000000000 / 365 = r / 31536000000000000 := by ring
  refine ⟨?_, ?_, ?_, ?_, ?_, ?_, ?_, ?_⟩
  · intro h1
    unfold formatRuntime runtimeUnits
    simp only [List.tail_cons, runtimeLoop]
    push_cast
    rw [if_pos ((div_lt_one (by norm_num)).mpr h1)]
  · intro h1 h2
    unfold formatRuntime runtimeUnits
    simp only [List.tail_cons, runtimeLoop]
    push_cast
    rw [e2]
    rw [if_neg (not_lt.mpr ((one_le_div (by norm_num)).mpr h1)),
      if_pos ((div_lt_one (by norm_num)).mpr h2)]
  · intro h1 h2
    unfold formatRuntime runtimeUnits
    simp only [List.tail_cons, runtimeLoop]
    push_cast
    rw [e2, e3]
    rw [if_neg (not_lt.mpr ((one_le_div (by norm_num)).mpr (by linarith))),
      if_neg (not_lt.mpr ((one_le_div (by norm_num)).mpr h1)),
      if_pos ((div_lt_one (by norm_num)).mpr h2)]
  · intro h1 h2
    unfold formatRuntime runtimeUnits
    simp only [List.tail_cons, runtimeLoop]
    push_cast
    rw [e2, e3, e4]
    rw [if_neg (not_lt.mpr ((one_le_div (by norm_num)).mpr (by linarith))),
      if_neg (not_lt.mpr ((one_le_div (by norm_num)).mpr (by linarith))),
      if_neg (not_lt.mpr ((one_le_div (by norm_num)).mpr h1)),
      if_pos ((div_lt_one (by norm_num)).mpr h2)]
  · intro h1 h2
    unfold formatRuntime runtimeUnits
    simp only [List.tail_cons, runtimeLoop]
    push_cast
    rw [e2, e3, e4, e5]
    rw [if_neg (not_lt.mpr ((one_le_div (by norm_num)).mpr (by linarith))),
      if_neg (not_lt.mpr ((one_le_div (by norm_num)).mpr (by linarith))),
      if_neg (not_lt.mpr ((one_le_div (by norm_num)).mpr (by linarith))),
      if_neg (not_lt.mpr ((one_le_div (by norm_num)).mpr h1)),
      if_pos ((div_lt_one (by norm_num)).mpr h2)]
  · intro h1 h2
    unfold formatRuntime runtimeUnits
    simp only [List.tail_cons, runtimeLoop]
    push_cast
    rw [e2, e3, e4, e5, e6]
    rw [if_neg (not_lt.mpr ((one_le_div (by norm_num)).mpr (by linarith))),
      if_neg (not_lt.mpr ((one_le_div (by norm_num)).mpr (by linarith))),
      if_neg (not_lt.mpr ((one_le_div (by norm_num)).mpr (by linarith))),
      if_neg (not_lt.mpr ((one_le_div (by norm_num)).mpr (by linarith))),
      if_neg (not_lt.mpr ((one_le_div (by norm_num)).mpr h1)),
      if_pos ((div_lt_one (by norm_num)).mpr h2)]
  · intro h1 h2
    unfold formatRuntime runtimeUnits
    simp only [List.tail_cons, runtimeLoop]
    push_cast
    rw [e2, e3, e4, e5, e6, e7]
    rw [if_neg (not_lt.mpr ((one_le_div (by norm_num)).mpr (by linarith))),
      if_neg (not_lt.mpr ((one_le_div (by norm_num)).mpr (by linarith))),
      if_neg (not_lt.mpr ((one_le_div (by norm_num)).mpr (by linarith))),
      if_neg (not_lt.mpr ((one_le_div (by norm_num)).mpr (by linarith))),
      if_neg (not_lt.mpr ((one_le_div (by norm_num)).mpr (by linarith))),
      if_neg (not_lt.mpr ((one_le_div (by norm_num)).mpr h1)),
      if_pos ((div_lt_one (by norm_num)).mpr h2)]
  · intro h1
    unfold formatRuntime runtimeUnits
    simp only [List.tail_cons, runtimeLoop]
    push_cast
    rw [e2, e3, e4, e5, e6, e7]
    rw [if_neg (not_lt.mpr ((one_le_div (by norm_num)).mpr (by linarith))),
      if_neg (not_lt.mpr ((one_le_div (by norm_num)).mpr (by linarith))),
      if_neg (not_lt.mpr ((one_le_div (by norm_num)).mpr (by linarith))),
      if_neg (not_lt.mpr ((one_le_div (by norm_num)).mpr (by linarith))),
      if_neg (not_lt.mpr ((one_le_div (by norm_num)).mpr (by linarith))),
      if_neg (not_lt.mpr ((one_le_div (by norm_num)).mpr (by linarith))),
      if_neg (not_lt.mpr ((one_le_div (by norm_num)).mpr h1))]

/-- Witness for C4: at runtime `999700` ns the characterization yields
the microseconds branch. -/
theorem formatRuntime_unit_selection_witness :
    formatRuntime 999700 =
      toString (pyRound ((999700 : ℚ) / 1000) % 1000) ++ " " ++
        "microsecs" :=
  (formatRuntime_unit_selection 999700).2.1 (by norm_num) (by norm_num)
